import Mathlib

/-!
Verification of the association-mining core: the Apriori miner
(src/algorithms/apriori.py), the Eclat miner (src/algorithms/eclat.py) and
the shared rule generator, shallowly embedded in Lean.

Items are drawn from a linearly ordered type with decidable equality
(strings in the reference code); a transaction is a finite set of items and
the transaction store is a list of transactions.  Python float support
values are modelled as exact rationals; Python dicts keyed by frozensets
are modelled either as a lookup function into an option type (miner
results, where the stored value is determined by the key) or as
association lists of pairs (the input of the rule generator, which is
iterated as well as queried).
-/

set_option maxHeartbeats 1000000

variable {α : Type} [DecidableEq α] [LinearOrder α]

/-- Truncation of a rational toward zero, Python's built-in int() conversion
applied to a float (apriori.py line 19, eclat.py line 19). -/
def ratTrunc (q : ℚ) : ℤ := if 0 ≤ q then ⌊q⌋ else -⌊-q⌋

/-- Absolute support-count threshold
`min_support_count = max(1, int(min_support * n + 1e-9))`
(apriori.py line 19, eclat.py line 19). -/
def minSupportCount (minSupport : ℚ) (n : ℕ) : ℕ :=
  (max 1 (ratTrunc (minSupport * n + 1 / 1000000000))).toNat

/-- Number of transactions containing `c` as a subset: the counting loop of
apriori.py lines 50-55 (also the item_counts loop of lines 22-25 when `c`
is a singleton). -/
def countSupport (transactions : List (Finset α)) (c : Finset α) : ℕ :=
  transactions.foldl (fun acc t => if c ⊆ t then acc + 1 else acc) 0

/-- The set of items occurring in some transaction: the key set of
item_counts (apriori.py lines 22-25) and of tidsets (eclat.py lines 22-25). -/
def allItems (transactions : List (Finset α)) : Finset α :=
  transactions.foldl (fun acc t => acc ∪ t) ∅

/-- The frequent singletons L1 (apriori.py line 28). -/
def aprioriL1 (transactions : List (Finset α)) (msc : ℕ) : Finset (Finset α) :=
  ((allItems transactions).filter fun i => msc ≤ countSupport transactions {i}).image
    fun i => ({i} : Finset α)

/-- Candidate generation, join step plus subset pruning (apriori.py lines
34-48): unions of pairs of distinct members of the previous level kept when
the union has size exactly `k` and every size-(k-1) subset is in the
previous level; a Finset, so candidates are deduplicated. -/
def aprioriCandidates (Lk : Finset (Finset α)) (k : ℕ) : Finset (Finset α) :=
  (((Lk ×ˢ Lk).filter fun p => p.1 ≠ p.2).image fun p => p.1 ∪ p.2).filter
    fun u => u.card = k ∧ ∀ s ∈ Finset.powersetCard (k - 1) u, s ∈ Lk

/-- The while-loop of apriori (apriori.py lines 32-60), accumulating the
union of the levels L2, L3, ...  The Python loop runs until the level is
empty; here a fuel parameter bounds the recursion, and the callers pass
enough fuel for the loop to reach an empty level (each level holds sets of
a fixed cardinality below the number of distinct items, as proved below). -/
def aprioriLoop (transactions : List (Finset α)) (msc : ℕ) :
    ℕ → Finset (Finset α) → ℕ → Finset (Finset α)
  | 0, _, _ => ∅
  | fuel + 1, Lk, k =>
    if Lk = ∅ then ∅
    else
      let Lk2 := (aprioriCandidates Lk k).filter fun c => msc ≤ countSupport transactions c
      Lk2 ∪ aprioriLoop transactions msc fuel Lk2 (k + 1)

/-- The key set of the dict `L` accumulated by apriori
(apriori.py lines 15-60). -/
def aprioriKeys (transactions : List (Finset α)) (minSupport : ℚ) : Finset (Finset α) :=
  if transactions.length = 0 then ∅
  else
    aprioriL1 transactions (minSupportCount minSupport transactions.length) ∪
      aprioriLoop transactions (minSupportCount minSupport transactions.length)
        ((allItems transactions).card + 1)
        (aprioriL1 transactions (minSupportCount minSupport transactions.length)) 2

/-- The frequent-itemset mapping returned by apriori, as a lookup function
(apriori.py lines 5-64).  The value stored for each key is the count found
by the counting loop divided by n (line 63). -/
def apriori (transactions : List (Finset α)) (minSupport : ℚ) (I : Finset α) : Option ℚ :=
  if I ∈ aprioriKeys transactions minSupport then
    some ((countSupport transactions I : ℚ) / (transactions.length : ℚ))
  else none

/-- TID-set of an itemset: the indices of the transactions containing it. -/
def Tids (transactions : List (Finset α)) (I : Finset α) : Finset ℕ :=
  (Finset.range transactions.length).filter fun tid => I ⊆ transactions.getD tid ∅

/-- Vertical representation: the TID-set of a single item
(eclat.py lines 22-25). -/
def itemTids (transactions : List (Finset α)) (i : α) : Finset ℕ :=
  (Finset.range transactions.length).filter fun tid => i ∈ transactions.getD tid ∅

/-- The frequent singletons with their TID-sets, sorted by item for
deterministic traversal (eclat.py lines 28-31 and 56-57). -/
def eclatSingletons (transactions : List (Finset α)) (msc : ℕ) : List (α × Finset ℕ) :=
  (((allItems transactions).filter fun i => msc ≤ (itemTids transactions i).card).sort
      (· ≤ ·)).map fun i => (i, itemTids transactions i)

/-- The nested dfs of eclat (eclat.py lines 35-53) in state-passing form:
the shared mutable results dict becomes the returned list of
(itemset, tidset) pairs, in insertion order. -/
def eclatDfs (msc : ℕ) :
    Finset α → Finset ℕ → List (α × Finset ℕ) → List (Finset α × Finset ℕ)
  | _, _, [] => []
  | pfx, ptids, (i, tids) :: rest =>
    let newItemset := if pfx = ∅ then ({i} : Finset α) else insert i pfx
    let newTids := if pfx = ∅ then tids else ptids ∩ tids
    (if msc ≤ newTids.card then
      (newItemset, newTids) :: eclatDfs msc newItemset newTids rest
    else []) ++ eclatDfs msc pfx ptids rest

/-- The results dict of eclat as an association list (eclat.py lines 33-59);
the initial call passes the empty prefix and the full TID range. -/
def eclatPairs (transactions : List (Finset α)) (minSupport : ℚ) :
    List (Finset α × Finset ℕ) :=
  if transactions.length = 0 then []
  else
    eclatDfs (minSupportCount minSupport transactions.length) ∅
      (Finset.range transactions.length)
      (eclatSingletons transactions (minSupportCount minSupport transactions.length))

/-- The frequent-itemset mapping returned by eclat, as a lookup function
(eclat.py lines 5-62): the stored TID-set cardinality divided by n (line 61). -/
def eclat (transactions : List (Finset α)) (minSupport : ℚ) (I : Finset α) : Option ℚ :=
  ((eclatPairs transactions minSupport).find? fun p => decide (p.1 = I)).map
    fun p => ((p.2.card : ℚ) / (transactions.length : ℚ))

/-- An association rule record (apriori.py lines 97-103). -/
structure AssocRule (α : Type) where
  antecedent : Finset α
  consequent : Finset α
  support : ℚ
  confidence : ℚ
  lift : ℚ
deriving DecidableEq

/-- Python dict lookup `freq_itemsets.get(key)` over an association list
(apriori.py lines 89-90). -/
def dictGet (freq : List (Finset α × ℚ)) (key : Finset α) : Option ℚ :=
  (freq.find? fun p => decide (p.1 = key)).map Prod.snd

/-- The rules derived from one frequent itemset: the body of the outer loop
of generate_association_rules (apriori.py lines 80-103, identical in
eclat.py lines 71-94).  `combinations(items, r)` over the distinct items of
the itemset is modelled as the length-r sublists of its sorted element
list. -/
def rulesFor (freq : List (Finset α × ℚ)) (minConfidence : ℚ)
    (itemset : Finset α) (suppXY : ℚ) : List (AssocRule α) :=
  if itemset.card < 2 then []
  else
    (List.range' 1 (itemset.card - 1)).flatMap fun r =>
      ((itemset.sort (· ≤ ·)).sublistsLen r).filterMap fun antList =>
        let antecedent := antList.toFinset
        let consequent := itemset \ antecedent
        if consequent = ∅ then none
        else
          match dictGet freq antecedent, dictGet freq consequent with
          | some suppX, some suppY =>
            if suppX = 0 then none
            else if suppXY / suppX < minConfidence then none
            else
              some { antecedent := antecedent, consequent := consequent, support := suppXY,
                     confidence := suppXY / suppX,
                     lift := if 0 < suppX * suppY then suppXY / (suppX * suppY) else 0 }
          | _, _ => none

/-- generate_association_rules (apriori.py lines 67-104, eclat.py lines
65-95): iterate the mapping and collect the rules of every itemset. -/
def generate_association_rules (freq : List (Finset α × ℚ)) (minConfidence : ℚ) :
    List (AssocRule α) :=
  freq.flatMap fun p => rulesFor freq minConfidence p.1 p.2

/-! ### Counting lemmas -/

lemma countSupport_eq_countP (T : List (Finset α)) (c : Finset α) :
    countSupport T c = T.countP fun t => decide (c ⊆ t) := by
  have h : ∀ (L : List (Finset α)) (acc : ℕ),
      L.foldl (fun a t => if c ⊆ t then a + 1 else a) acc
        = acc + L.countP fun t => decide (c ⊆ t) := by
    intro L
    induction L with
    | nil => intro acc; simp
    | cons t L ih =>
      intro acc
      rw [List.foldl_cons, List.countP_cons, ih]
      by_cases hc : c ⊆ t <;> simp [hc] <;> omega
  simpa using h T 0

lemma countSupport_anti (T : List (Finset α)) {A B : Finset α} (h : A ⊆ B) :
    countSupport T B ≤ countSupport T A := by
  rw [countSupport_eq_countP, countSupport_eq_countP]
  refine List.countP_mono_left fun t _ hB => ?_
  simp only [decide_eq_true_eq] at hB ⊢
  exact h.trans hB

lemma countSupport_le_length (T : List (Finset α)) (c : Finset α) :
    countSupport T c ≤ T.length := by
  rw [countSupport_eq_countP]; exact List.countP_le_length _

lemma countSupport_pos_iff (T : List (Finset α)) (c : Finset α) :
    0 < countSupport T c ↔ ∃ t ∈ T, c ⊆ t := by
  rw [countSupport_eq_countP, List.countP_pos_iff]
  simp

lemma subset_foldl_union (L : List (Finset α)) : ∀ s : Finset α, s ⊆ L.foldl (· ∪ ·) s := by
  induction L with
  | nil => intro s; simp
  | cons t L ih =>
    intro s
    simp only [List.foldl_cons]
    exact Finset.subset_union_left.trans (ih (s ∪ t))

lemma mem_subset_allItems {T : List (Finset α)} {t : Finset α} (h : t ∈ T) :
    t ⊆ allItems T := by
  suffices h2 : ∀ (L : List (Finset α)) (s : Finset α), t ∈ L → t ⊆ L.foldl (· ∪ ·) s from
    h2 T ∅ h
  intro L
  induction L with
  | nil => intro s hs; cases hs
  | cons u L ih =>
    intro s hs
    simp only [List.foldl_cons]
    rcases List.mem_cons.mp hs with h1 | h1
    · subst h1; exact Finset.subset_union_right.trans (subset_foldl_union L (s ∪ t))
    · exact ih (s ∪ u) h1

lemma subset_allItems_of_countSupport {T : List (Finset α)} {I : Finset α}
    (h : 1 ≤ countSupport T I) : I ⊆ allItems T := by
  obtain ⟨t, ht, hIt⟩ := (countSupport_pos_iff T I).mp h
  exact hIt.trans (mem_subset_allItems ht)

/-! ### TID-set lemmas -/

lemma Tids_card_eq_countSupport (T : List (Finset α)) (I : Finset α) :
    (Tids T I).card = countSupport T I := by
  rw [countSupport_eq_countP]
  unfold Tids
  induction T using List.reverseRecOn with
  | nil => simp
  | append_singleton L t ih =>
    have hlen : (L ++ [t]).length = L.length + 1 := by simp
    rw [hlen, Finset.range_succ, Finset.filter_insert, List.countP_append]
    have hgetL : ∀ tid ∈ Finset.range L.length,
        ((I : Finset α) ⊆ (L ++ [t]).getD tid ∅ ↔ I ⊆ L.getD tid ∅) := by
      intro tid htid
      rw [List.getD_append L [t] ∅ tid (Finset.mem_range.mp htid)]
    have hgett : (L ++ [t]).getD L.length ∅ = t := by
      rw [List.getD_append_right L [t] ∅ L.length le_rfl, Nat.sub_self]
      rfl
    rw [Finset.filter_congr hgetL, hgett]
    by_cases hIt : I ⊆ t
    · rw [if_pos hIt, Finset.card_insert_of_not_mem (by
        intro hmem
        exact absurd (Finset.mem_range.mp (Finset.mem_filter.mp hmem).1) (lt_irrefl _)), ih]
      simp [hIt]
    · rw [if_neg hIt, ih]
      simp [hIt]

lemma Tids_anti (T : List (Finset α)) {A B : Finset α} (h : A ⊆ B) :
    Tids T B ⊆ Tids T A := by
  intro tid htid
  rw [Tids, Finset.mem_filter] at htid ⊢
  exact ⟨htid.1, h.trans htid.2⟩

lemma card_Tids_anti (T : List (Finset α)) {A B : Finset α} (h : A ⊆ B) :
    (Tids T B).card ≤ (Tids T A).card :=
  Finset.card_le_card (Tids_anti T h)

lemma Tids_singleton (T : List (Finset α)) (i : α) : Tids T {i} = itemTids T i := by
  unfold Tids itemTids
  exact Finset.filter_congr fun tid _ => by rw [Finset.singleton_subset_iff]

lemma Tids_insert (T : List (Finset α)) (i : α) (P : Finset α) :
    Tids T (insert i P) = Tids T P ∩ itemTids T i := by
  ext tid
  simp only [Tids, itemTids, Finset.mem_filter, Finset.mem_inter,
    Finset.insert_subset_iff]
  tauto

lemma Tids_empty (T : List (Finset α)) : Tids T ∅ = Finset.range T.length := by
  unfold Tids
  exact Finset.filter_true_of_mem fun tid _ => Finset.empty_subset _

/-! ### Threshold lemmas -/

lemma one_le_minSupportCount (ms : ℚ) (n : ℕ) : 1 ≤ minSupportCount ms n := by
  unfold minSupportCount
  have h : (1 : ℤ) ≤ max 1 (ratTrunc (ms * n + 1 / 1000000000)) := le_max_left _ _
  omega

lemma max_one_ratTrunc (q : ℚ) : max 1 (ratTrunc q) = max 1 ⌊q⌋ := by
  unfold ratTrunc
  by_cases h : 0 ≤ q
  · rw [if_pos h]
  · rw [if_neg h]
    push_neg at h
    have h1 : ⌊q⌋ ≤ 0 := Int.floor_nonpos h.le
    have h2 : (0 : ℤ) ≤ ⌊-q⌋ := Int.floor_nonneg.mpr (by linarith)
    rw [max_eq_left (by omega : ⌊q⌋ ≤ 1), max_eq_left (by omega : -⌊-q⌋ ≤ 1)]

lemma minSupportCount_eq_floor (ms : ℚ) (n : ℕ) :
    minSupportCount ms n = (max 1 ⌊ms * n + 1 / 1000000000⌋).toNat := by
  unfold minSupportCount
  rw [max_one_ratTrunc]

set_option linter.unusedSectionVars false

/-! ### Level characterization of the apriori search -/

/-- The frequent itemsets of size exactly `j` (proof-side helper). -/
def freqLevel (T : List (Finset α)) (msc : ℕ) (j : ℕ) : Finset (Finset α) :=
  ((allItems T).powersetCard j).filter fun I => msc ≤ countSupport T I

lemma mem_freqLevel {T : List (Finset α)} {msc j : ℕ} (h1 : 1 ≤ msc) {I : Finset α} :
    I ∈ freqLevel T msc j ↔ I.card = j ∧ msc ≤ countSupport T I := by
  unfold freqLevel
  rw [Finset.mem_filter, Finset.mem_powersetCard]
  constructor
  · rintro ⟨⟨_, hcard⟩, hcnt⟩; exact ⟨hcard, hcnt⟩
  · rintro ⟨hcard, hcnt⟩
    exact ⟨⟨subset_allItems_of_countSupport (h1.trans hcnt), hcard⟩, hcnt⟩

lemma joinPrune (T : List (Finset α)) {msc k : ℕ} (h1 : 1 ≤ msc) (h2 : 2 ≤ k) :
    ((aprioriCandidates (freqLevel T msc (k - 1)) k).filter fun c =>
        msc ≤ countSupport T c) = freqLevel T msc k := by
  ext c
  rw [Finset.mem_filter, mem_freqLevel h1]
  constructor
  · rintro ⟨hc, hcnt⟩
    unfold aprioriCandidates at hc
    rw [Finset.mem_filter] at hc
    exact ⟨hc.2.1, hcnt⟩
  · rintro ⟨hcard, hcnt⟩
    refine ⟨?_, hcnt⟩
    unfold aprioriCandidates
    rw [Finset.mem_filter]
    have hprune : ∀ s ∈ Finset.powersetCard (k - 1) c, s ∈ freqLevel T msc (k - 1) := by
      intro s hs
      rw [Finset.mem_powersetCard] at hs
      exact (mem_freqLevel h1).mpr ⟨hs.2, le_trans hcnt (countSupport_anti T hs.1)⟩
    refine ⟨?_, hcard, hprune⟩
    obtain ⟨a, ha, b, hb, hab⟩ := Finset.one_lt_card.mp (by omega : 1 < c.card)
    refine Finset.mem_image.mpr ⟨(c.erase a, c.erase b), ?_, ?_⟩
    · rw [Finset.mem_filter, Finset.mem_product]
      have hca : c.erase a ∈ freqLevel T msc (k - 1) := (mem_freqLevel h1).mpr
        ⟨by rw [Finset.card_erase_of_mem ha, hcard],
         le_trans hcnt (countSupport_anti T (Finset.erase_subset a c))⟩
      have hcb : c.erase b ∈ freqLevel T msc (k - 1) := (mem_freqLevel h1).mpr
        ⟨by rw [Finset.card_erase_of_mem hb, hcard],
         le_trans hcnt (countSupport_anti T (Finset.erase_subset b c))⟩
      refine ⟨⟨hca, hcb⟩, ?_⟩
      intro heq
      have hbmem : b ∈ c.erase a := Finset.mem_erase.mpr ⟨fun h => hab h.symm, hb⟩
      rw [show c.erase a = c.erase b from heq] at hbmem
      exact (Finset.mem_erase.mp hbmem).1 rfl
    · ext x
      simp only [Finset.mem_union, Finset.mem_erase]
      constructor
      · rintro (⟨_, hx⟩ | ⟨_, hx⟩) <;> exact hx
      · intro hx
        by_cases hxa : x = a
        · exact Or.inr ⟨by rw [hxa]; exact hab, hx⟩
        · exact Or.inl ⟨hxa, hx⟩

lemma aprioriLoop_succ (T : List (Finset α)) (msc fuel : ℕ) (Lk : Finset (Finset α)) (k : ℕ) :
    aprioriLoop T msc (fuel + 1) Lk k =
      if Lk = ∅ then ∅
      else ((aprioriCandidates Lk k).filter fun c => msc ≤ countSupport T c) ∪
        aprioriLoop T msc fuel
          ((aprioriCandidates Lk k).filter fun c => msc ≤ countSupport T c) (k + 1) := rfl

lemma aprioriLoop_mem (T : List (Finset α)) {msc : ℕ} (h1 : 1 ≤ msc) :
    ∀ (fuel k : ℕ), 2 ≤ k → (allItems T).card + 2 ≤ fuel + k →
      ∀ I : Finset α,
        (I ∈ aprioriLoop T msc fuel (freqLevel T msc (k - 1)) k ↔
          k ≤ I.card ∧ msc ≤ countSupport T I) := by
  intro fuel
  induction fuel with
  | zero =>
    intro k hk hfuel I
    simp only [aprioriLoop, Finset.not_mem_empty, false_iff]
    rintro ⟨hcard, hcnt⟩
    have hsub : I ⊆ allItems T := subset_allItems_of_countSupport (h1.trans hcnt)
    have hle := Finset.card_le_card hsub
    omega
  | succ fuel ih =>
    intro k hk hfuel I
    rw [aprioriLoop_succ]
    by_cases hLk : freqLevel T msc (k - 1) = ∅
    · rw [if_pos hLk]
      simp only [Finset.not_mem_empty, false_iff]
      rintro ⟨hcard, hcnt⟩
      obtain ⟨J, hJsub, hJcard⟩ :=
        Finset.exists_subset_card_eq ((by omega : k - 1 ≤ k).trans hcard)
      have hJ : J ∈ freqLevel T msc (k - 1) := (mem_freqLevel h1).mpr
        ⟨hJcard, le_trans hcnt (countSupport_anti T hJsub)⟩
      rw [hLk] at hJ
      exact absurd hJ (Finset.not_mem_empty J)
    · rw [if_neg hLk, joinPrune T h1 hk, Finset.mem_union]
      have hnext := ih (k + 1) (by omega) (by omega) I
      simp only [Nat.add_sub_cancel] at hnext
      rw [hnext, mem_freqLevel h1]
      omega

lemma aprioriL1_eq_freqLevel (T : List (Finset α)) {msc : ℕ} (h1 : 1 ≤ msc) :
    aprioriL1 T msc = freqLevel T msc 1 := by
  ext I
  unfold aprioriL1
  rw [Finset.mem_image, mem_freqLevel h1]
  constructor
  · rintro ⟨i, hi, rfl⟩
    rw [Finset.mem_filter] at hi
    exact ⟨Finset.card_singleton i, hi.2⟩
  · rintro ⟨hcard, hcnt⟩
    obtain ⟨i, rfl⟩ := Finset.card_eq_one.mp hcard
    refine ⟨i, Finset.mem_filter.mpr ⟨?_, hcnt⟩, rfl⟩
    exact subset_allItems_of_countSupport (h1.trans hcnt) (Finset.mem_singleton_self i)

lemma mem_aprioriKeys (T : List (Finset α)) (ms : ℚ) (I : Finset α) :
    I ∈ aprioriKeys T ms ↔
      I.Nonempty ∧ minSupportCount ms T.length ≤ countSupport T I := by
  unfold aprioriKeys
  by_cases hn : T.length = 0
  · rw [if_pos hn]
    simp only [Finset.not_mem_empty, false_iff]
    rintro ⟨_, hcnt⟩
    have hle := countSupport_le_length T I
    have h1 := one_le_minSupportCount ms T.length
    omega
  · rw [if_neg hn]
    have h1 : 1 ≤ minSupportCount ms T.length := one_le_minSupportCount ms T.length
    rw [Finset.mem_union, aprioriL1_eq_freqLevel T h1]
    have hloop := aprioriLoop_mem T h1 ((allItems T).card + 1) 2 (by omega) (by omega) I
    simp only [show (2 : ℕ) - 1 = 1 from rfl] at hloop
    rw [hloop, mem_freqLevel h1, ← Finset.card_pos]
    omega

lemma apriori_eq_some_iff (T : List (Finset α)) (ms : ℚ) (I : Finset α) (q : ℚ) :
    apriori T ms I = some q ↔
      I.Nonempty ∧ minSupportCount ms T.length ≤ countSupport T I ∧
        q = (countSupport T I : ℚ) / (T.length : ℚ) := by
  unfold apriori
  by_cases h : I ∈ aprioriKeys T ms
  · rw [if_pos h]
    rw [mem_aprioriKeys] at h
    simp only [Option.some.injEq]
    constructor
    · intro hq; exact ⟨h.1, h.2, hq.symm⟩
    · rintro ⟨_, _, hq⟩; exact hq.symm
  · rw [if_neg h]
    rw [mem_aprioriKeys] at h
    constructor
    · intro hq; exact absurd hq (by simp)
    · rintro ⟨hne, hcnt, _⟩; exact absurd ⟨hne, hcnt⟩ h

/-! ### Characterization of the eclat depth-first search -/

lemma eclatDfs_cons (msc : ℕ) (pfx : Finset α) (ptids : Finset ℕ) (i : α)
    (tids : Finset ℕ) (rest : List (α × Finset ℕ)) :
    eclatDfs msc pfx ptids ((i, tids) :: rest) =
      (if msc ≤ (if pfx = ∅ then tids else ptids ∩ tids).card then
        ((if pfx = ∅ then ({i} : Finset α) else insert i pfx),
          (if pfx = ∅ then tids else ptids ∩ tids)) ::
          eclatDfs msc (if pfx = ∅ then ({i} : Finset α) else insert i pfx)
            (if pfx = ∅ then tids else ptids ∩ tids) rest
      else []) ++ eclatDfs msc pfx ptids rest := rfl

lemma eclatDfs_mem (T : List (Finset α)) (msc : ℕ) :
    ∀ (L : List (α × Finset ℕ)) (P : Finset α),
      (∀ x ∈ L, x.2 = itemTids T x.1) →
      ∀ (I : Finset α) (s : Finset ℕ),
        ((I, s) ∈ eclatDfs msc P (Tids T P) L ↔
          ∃ S : Finset α, (∀ a ∈ S, a ∈ L.map Prod.fst) ∧ S.Nonempty ∧
            I = P ∪ S ∧ msc ≤ (Tids T I).card ∧ s = Tids T I) := by
  intro L
  induction L with
  | nil =>
    intro P _ I s
    simp only [eclatDfs, List.not_mem_nil, false_iff]
    rintro ⟨S, hS, ⟨a, ha⟩, _⟩
    simpa using hS a ha
  | cons x rest ih =>
    obtain ⟨i, tids⟩ := x
    intro P hinv I s
    have htids : tids = itemTids T i := hinv (i, tids) (List.mem_cons_self _ _)
    have hrest : ∀ x ∈ rest, x.2 = itemTids T x.1 := fun x hx =>
      hinv x (List.mem_cons_of_mem _ hx)
    have hnewI : (if P = ∅ then ({i} : Finset α) else insert i P) = insert i P := by
      by_cases hP : P = ∅
      · rw [if_pos hP, hP]; simp
      · rw [if_neg hP]
    have hnewT : (if P = ∅ then tids else Tids T P ∩ tids) = Tids T (insert i P) := by
      rw [htids]
      by_cases hP : P = ∅
      · rw [if_pos hP, hP, show insert i (∅ : Finset α) = {i} by simp, Tids_singleton]
      · rw [if_neg hP, Tids_insert]
    rw [eclatDfs_cons, hnewI, hnewT, List.mem_append]
    simp only [List.map_cons, List.mem_cons]
    by_cases hfreq : msc ≤ (Tids T (insert i P)).card
    · rw [if_pos hfreq, List.mem_cons, ih (insert i P) hrest I s, ih P hrest I s]
      constructor
      · rintro ((heq | ⟨S, hS, hne, hI, hc, hs⟩) | ⟨S, hS, hne, hI, hc, hs⟩)
        · obtain ⟨hI, hs⟩ := Prod.mk.injEq .. ▸ heq
          refine ⟨{i}, ?_, Finset.singleton_nonempty i, ?_, ?_, ?_⟩
          · intro a ha; exact Or.inl (Finset.mem_singleton.mp ha)
          · rw [hI, Finset.union_comm, ← Finset.insert_eq]
          · rw [hI]; exact hfreq
          · rw [hI, hs]
        · refine ⟨insert i S, ?_, Finset.insert_nonempty i S, ?_, hc, hs⟩
          · intro a ha
            rcases Finset.mem_insert.mp ha with h | h
            · exact Or.inl h
            · exact Or.inr (hS a h)
          · rw [hI, Finset.insert_union, ← Finset.union_insert]
        · exact ⟨S, fun a ha => Or.inr (hS a ha), hne, hI, hc, hs⟩
      · rintro ⟨S, hS, ⟨a0, ha0⟩, hI, hc, hs⟩
        by_cases hiS : i ∈ S
        · have hI2 : I = insert i P ∪ S.erase i := by
            rw [hI, Finset.insert_union, ← Finset.union_insert, Finset.insert_erase hiS]
          by_cases hS' : S.erase i = ∅
          · left; left
            have hI3 : I = insert i P := by rw [hI2, hS', Finset.union_empty]
            rw [Prod.mk.injEq]
            exact ⟨hI3, by rw [hs, hI3]⟩
          · left; right
            refine ⟨S.erase i, ?_, Finset.nonempty_iff_ne_empty.mpr hS', hI2, hc, hs⟩
            intro a ha
            obtain ⟨hne, haS⟩ := Finset.mem_erase.mp ha
            rcases hS a haS with h | h
            · exact absurd h hne
            · exact h
        · right
          refine ⟨S, ?_, ⟨a0, ha0⟩, hI, hc, hs⟩
          intro a ha
          rcases hS a ha with h | h
          · exact absurd (h ▸ ha) hiS
          · exact h
    · rw [if_neg hfreq]
      simp only [List.not_mem_nil, false_or]
      rw [ih P hrest I s]
      constructor
      · rintro ⟨S, hS, hne, hI, hc, hs⟩
        exact ⟨S, fun a ha => Or.inr (hS a ha), hne, hI, hc, hs⟩
      · rintro ⟨S, hS, ⟨a0, ha0⟩, hI, hc, hs⟩
        by_cases hiS : i ∈ S
        · exfalso
          apply hfreq
          refine le_trans hc (card_Tids_anti T ?_)
          rw [hI]
          exact Finset.insert_subset_iff.mpr
            ⟨Finset.mem_union_right P hiS, Finset.subset_union_left⟩
        · refine ⟨S, ?_, ⟨a0, ha0⟩, hI, hc, hs⟩
          intro a ha
          rcases hS a ha with h | h
          · exact absurd (h ▸ ha) hiS
          · exact h

lemma eclatPairs_mem (T : List (Finset α)) (ms : ℚ) (I : Finset α) (s : Finset ℕ) :
    (I, s) ∈ eclatPairs T ms ↔
      I.Nonempty ∧ minSupportCount ms T.length ≤ (Tids T I).card ∧ s = Tids T I := by
  unfold eclatPairs
  have h1 := one_le_minSupportCount ms T.length
  by_cases hn : T.length = 0
  · rw [if_pos hn]
    simp only [List.not_mem_nil, false_iff]
    rintro ⟨_, hcnt, _⟩
    have hsub : Tids T I ⊆ Finset.range T.length := Finset.filter_subset _ _
    have hcard := Finset.card_le_card hsub
    rw [Finset.card_range] at hcard
    omega
  · rw [if_neg hn]
    have hinv : ∀ x ∈ eclatSingletons T (minSupportCount ms T.length),
        x.2 = itemTids T x.1 := by
      intro x hx
      simp only [eclatSingletons] at hx
      obtain ⟨i, _, rfl⟩ := List.mem_map.mp hx
      rfl
    rw [show Finset.range T.length = Tids T ∅ from (Tids_empty T).symm,
      eclatDfs_mem T (minSupportCount ms T.length) (eclatSingletons T _) ∅ hinv I s]
    constructor
    · rintro ⟨S, _, hne, hI, hc, hs⟩
      rw [Finset.empty_union] at hI
      subst hI
      exact ⟨hne, hc, hs⟩
    · rintro ⟨hne, hc, hs⟩
      refine ⟨I, ?_, hne, (Finset.empty_union I).symm, hc, hs⟩
      intro a ha
      have hIsub : I ⊆ allItems T := by
        apply subset_allItems_of_countSupport
        rw [← Tids_card_eq_countSupport]
        omega
      simp only [eclatSingletons, List.map_map]
      rw [show (Prod.fst ∘ fun i : α => (i, itemTids T i)) = id from rfl, List.map_id]
      rw [Finset.mem_sort, Finset.mem_filter]
      refine ⟨hIsub ha, ?_⟩
      rw [← Tids_singleton]
      exact le_trans hc (card_Tids_anti T (Finset.singleton_subset_iff.mpr ha))

lemma eclat_eq_some_iff (T : List (Finset α)) (ms : ℚ) (I : Finset α) (q : ℚ) :
    eclat T ms I = some q ↔
      I.Nonempty ∧ minSupportCount ms T.length ≤ countSupport T I ∧
        q = (countSupport T I : ℚ) / (T.length : ℚ) := by
  unfold eclat
  constructor
  · intro h
    obtain ⟨p, hfind, hq⟩ := Option.map_eq_some'.mp h
    have hp := List.find?_some hfind
    have hpmem := List.mem_of_find?_eq_some hfind
    obtain ⟨I', s⟩ := p
    rw [decide_eq_true_eq] at hp
    simp only at hp
    subst hp
    rw [eclatPairs_mem] at hpmem
    obtain ⟨hne, hc, hs⟩ := hpmem
    rw [Tids_card_eq_countSupport] at hc
    refine ⟨hne, hc, ?_⟩
    simp only at hq
    rw [← hq, hs, Tids_card_eq_countSupport]
  · rintro ⟨hne, hc, hq⟩
    have hmem : (I, Tids T I) ∈ eclatPairs T ms := (eclatPairs_mem T ms I _).mpr
      ⟨hne, by rw [Tids_card_eq_countSupport]; exact hc, rfl⟩
    have hsome : ((eclatPairs T ms).find? fun p => decide (p.1 = I)).isSome := by
      rw [List.find?_isSome]
      exact ⟨(I, Tids T I), hmem, by simp⟩
    obtain ⟨p, hp⟩ := Option.isSome_iff_exists.mp hsome
    rw [hp]
    have hp1 := List.find?_some hp
    have hpmem := List.mem_of_find?_eq_some hp
    obtain ⟨I', s⟩ := p
    rw [decide_eq_true_eq] at hp1
    simp only at hp1
    subst hp1
    rw [eclatPairs_mem] at hpmem
    simp only [Option.map_some']
    rw [hpmem.2.2, Tids_card_eq_countSupport, hq]

/-! ### Claim theorems about the miners -/

/-- C1: for every list of transactions and every min_support, the apriori
miner and the eclat miner return identical frequent-itemset mappings: the
same keys and, for each key, the same support value. -/
theorem apriori_eclat_agree (T : List (Finset α)) (ms : ℚ) (I : Finset α) :
    apriori T ms I = eclat T ms I := by
  by_cases h : I.Nonempty ∧ minSupportCount ms T.length ≤ countSupport T I
  · have ha := (apriori_eq_some_iff T ms I
      ((countSupport T I : ℚ) / (T.length : ℚ))).mpr ⟨h.1, h.2, rfl⟩
    have he := (eclat_eq_some_iff T ms I
      ((countSupport T I : ℚ) / (T.length : ℚ))).mpr ⟨h.1, h.2, rfl⟩
    rw [ha, he]
  · have ha : apriori T ms I = none := by
      unfold apriori
      rw [if_neg]
      rw [mem_aprioriKeys]
      exact h
    have he : eclat T ms I = none := by
      cases hE : eclat T ms I with
      | none => rfl
      | some q =>
        have hiff := (eclat_eq_some_iff T ms I q).mp hE
        exact absurd ⟨hiff.1, hiff.2.1⟩ h
    rw [ha, he]

/-- C2: for a non-empty transaction list and any min_support, the keys of
each miner's returned mapping are exactly the non-empty itemsets contained
in at least max(1, floor(min_support * n + 1e-9)) transactions, and each
key is mapped to its occurrence count divided by n. -/
theorem miners_keys_exact (T : List (Finset α)) (hT : T ≠ []) (ms : ℚ)
    (I : Finset α) (q : ℚ) :
    (apriori T ms I = some q ↔
      I.Nonempty ∧
        (max 1 ⌊ms * (T.length : ℚ) + 1 / 1000000000⌋).toNat ≤ (Tids T I).card ∧
        q = ((Tids T I).card : ℚ) / (T.length : ℚ)) ∧
    (eclat T ms I = some q ↔
      I.Nonempty ∧
        (max 1 ⌊ms * (T.length : ℚ) + 1 / 1000000000⌋).toNat ≤ (Tids T I).card ∧
        q = ((Tids T I).card : ℚ) / (T.length : ℚ)) := by
  rw [Tids_card_eq_countSupport, ← minSupportCount_eq_floor]
  exact ⟨apriori_eq_some_iff T ms I q, eclat_eq_some_iff T ms I q⟩

/-- The four-transaction store of the specification's first scenario,
with items a, b, c encoded as 0, 1, 2. -/
def sampleT : List (Finset ℕ) := [{0, 1}, {0, 1, 2}, {0}, {1, 2}]

theorem miners_keys_exact_witness :
    sampleT ≠ [] ∧
    ((apriori sampleT (1 / 2) {0, 1} = some (1 / 2) ↔
      (({0, 1} : Finset ℕ).Nonempty ∧
        (max 1 ⌊(1 / 2 : ℚ) * (sampleT.length : ℚ) + 1 / 1000000000⌋).toNat ≤
          (Tids sampleT {0, 1}).card ∧
        (1 / 2 : ℚ) = ((Tids sampleT {0, 1}).card : ℚ) / (sampleT.length : ℚ))) ∧
    (eclat sampleT (1 / 2) {0, 1} = some (1 / 2) ↔
      (({0, 1} : Finset ℕ).Nonempty ∧
        (max 1 ⌊(1 / 2 : ℚ) * (sampleT.length : ℚ) + 1 / 1000000000⌋).toNat ≤
          (Tids sampleT {0, 1}).card ∧
        (1 / 2 : ℚ) = ((Tids sampleT {0, 1}).card : ℚ) / (sampleT.length : ℚ)))) :=
  ⟨by decide, miners_keys_exact sampleT (by decide) (1 / 2) {0, 1} (1 / 2)⟩

/-- C4: downward closure of the returned mappings: if B is a key of either
miner's result and A is a non-empty subset of B, then A is a key of that
result as well. -/
theorem frequent_downward_closed (T : List (Finset α)) (ms : ℚ) {A B : Finset α}
    (hA : A.Nonempty) (hAB : A ⊆ B) :
    ((apriori T ms B).isSome → (apriori T ms A).isSome) ∧
    ((eclat T ms B).isSome → (eclat T ms A).isSome) := by
  have key : ∀ q, (B.Nonempty ∧ minSupportCount ms T.length ≤ countSupport T B ∧
      q = (countSupport T B : ℚ) / (T.length : ℚ)) →
      A.Nonempty ∧ minSupportCount ms T.length ≤ countSupport T A ∧
        (countSupport T A : ℚ) / (T.length : ℚ) =
          (countSupport T A : ℚ) / (T.length : ℚ) := by
    rintro q ⟨_, hcnt, _⟩
    exact ⟨hA, le_trans hcnt (countSupport_anti T hAB), rfl⟩
  constructor
  · intro hB
    obtain ⟨q, hq⟩ := Option.isSome_iff_exists.mp hB
    have h := key q ((apriori_eq_some_iff T ms B q).mp hq)
    rw [Option.isSome_iff_exists]
    exact ⟨_, (apriori_eq_some_iff T ms A _).mpr h⟩
  · intro hB
    obtain ⟨q, hq⟩ := Option.isSome_iff_exists.mp hB
    have h := key q ((eclat_eq_some_iff T ms B q).mp hq)
    rw [Option.isSome_iff_exists]
    exact ⟨_, (eclat_eq_some_iff T ms A _).mpr h⟩

theorem frequent_downward_closed_witness :
    ({0} : Finset ℕ).Nonempty ∧ ({0} : Finset ℕ) ⊆ {0, 1} ∧
    (((apriori sampleT (1 / 2) {0, 1}).isSome → (apriori sampleT (1 / 2) {0}).isSome) ∧
      ((eclat sampleT (1 / 2) {0, 1}).isSome → (eclat sampleT (1 / 2) {0}).isSome)) :=
  ⟨by decide, by decide, frequent_downward_closed sampleT (1 / 2) (by decide) (by decide)⟩

/-- C5: with at least one transaction, a min_support whose scaled value
rounds to a count of at most zero is clamped to an absolute threshold of 1;
an itemset contained in zero transactions is never a key of either miner's
result; and every stored support value is strictly positive and at most 1. -/
theorem threshold_clamp_support_bounds (T : List (Finset α)) (hT : T ≠ []) (ms : ℚ) :
    (⌊ms * (T.length : ℚ) + 1 / 1000000000⌋ ≤ 0 → minSupportCount ms T.length = 1) ∧
    (∀ I : Finset α, countSupport T I = 0 → apriori T ms I = none ∧ eclat T ms I = none) ∧
    (∀ (I : Finset α) (q : ℚ),
      apriori T ms I = some q ∨ eclat T ms I = some q → 0 < q ∧ q ≤ 1) := by
  have hn : 0 < T.length := List.length_pos.mpr hT
  have h1 := one_le_minSupportCount ms T.length
  refine ⟨?_, ?_, ?_⟩
  · intro h
    rw [minSupportCount_eq_floor,
      max_eq_left (le_trans h (by omega : (0 : ℤ) ≤ 1))]
    rfl
  · intro I hcnt
    have hnot : ¬ (I.Nonempty ∧ minSupportCount ms T.length ≤ countSupport T I) := by
      rintro ⟨_, hle⟩
      omega
    constructor
    · unfold apriori
      rw [if_neg]
      rw [mem_aprioriKeys]
      exact hnot
    · unfold eclat
      rw [List.find?_eq_none.mpr, Option.map_none']
      intro x hx
      obtain ⟨I', s⟩ := x
      rw [decide_eq_true_eq]
      simp only
      rintro rfl
      have hm := (eclatPairs_mem T ms I' s).mp hx
      rw [Tids_card_eq_countSupport] at hm
      exact hnot ⟨hm.1, hm.2.1⟩
  · intro I q hq
    have hchar : I.Nonempty ∧ minSupportCount ms T.length ≤ countSupport T I ∧
        q = (countSupport T I : ℚ) / (T.length : ℚ) := by
      rcases hq with h | h
      · exact (apriori_eq_some_iff T ms I q).mp h
      · exact (eclat_eq_some_iff T ms I q).mp h
    obtain ⟨_, hcnt, rfl⟩ := hchar
    have hcpos : (0 : ℚ) < (countSupport T I : ℚ) := by
      have : 0 < countSupport T I := by omega
      exact_mod_cast this
    have hnpos : (0 : ℚ) < (T.length : ℚ) := by exact_mod_cast hn
    constructor
    · exact div_pos hcpos hnpos
    · rw [div_le_one hnpos]
      exact_mod_cast countSupport_le_length T I

theorem threshold_clamp_support_bounds_witness :
    sampleT ≠ [] ∧
    ((⌊(0 : ℚ) * (sampleT.length : ℚ) + 1 / 1000000000⌋ ≤ 0 →
        minSupportCount 0 sampleT.length = 1) ∧
      (∀ I : Finset ℕ, countSupport sampleT I = 0 →
        apriori sampleT 0 I = none ∧ eclat sampleT 0 I = none) ∧
      (∀ (I : Finset ℕ) (q : ℚ),
        apriori sampleT 0 I = some q ∨ eclat sampleT 0 I = some q → 0 < q ∧ q ≤ 1)) :=
  ⟨by decide, threshold_clamp_support_bounds sampleT (by decide) 0⟩

/-- C3: membership in the candidate set built for level k: a candidate is
the union of two distinct itemsets of the previous level, has size exactly
k, and every size-(k-1) subset of it lies in the previous level.  The
pruning is part of candidate construction, so it precedes the support
counting that the loop applies to the finished candidate set. -/
theorem apriori_candidates_join_prune (Lk : Finset (Finset α)) (k : ℕ) (c : Finset α) :
    c ∈ aprioriCandidates Lk k ↔
      ((∃ p ∈ Lk, ∃ q ∈ Lk, p ≠ q ∧ c = p ∪ q) ∧ c.card = k ∧
        ∀ s ⊆ c, s.card = k - 1 → s ∈ Lk) := by
  unfold aprioriCandidates
  rw [Finset.mem_filter, Finset.mem_image]
  constructor
  · rintro ⟨⟨⟨p, q⟩, hpq, rfl⟩, hcard, hsub⟩
    rw [Finset.mem_filter, Finset.mem_product] at hpq
    refine ⟨⟨p, hpq.1.1, q, hpq.1.2, hpq.2, rfl⟩, hcard, ?_⟩
    intro s hs hscard
    exact hsub s (Finset.mem_powersetCard.mpr ⟨hs, hscard⟩)
  · rintro ⟨⟨p, hp, q, hq, hne, rfl⟩, hcard, hsub⟩
    refine ⟨⟨(p, q), ?_, rfl⟩, hcard, ?_⟩
    · rw [Finset.mem_filter, Finset.mem_product]
      exact ⟨⟨hp, hq⟩, hne⟩
    · intro s hs
      rw [Finset.mem_powersetCard] at hs
      exact hsub s hs.1 hs.2

theorem apriori_candidates_join_prune_witness :
    ({0, 1} : Finset ℕ) ∈ aprioriCandidates {{0}, {1}, {2}} 2 ↔
      ((∃ p ∈ ({{0}, {1}, {2}} : Finset (Finset ℕ)),
          ∃ q ∈ ({{0}, {1}, {2}} : Finset (Finset ℕ)),
            p ≠ q ∧ ({0, 1} : Finset ℕ) = p ∪ q) ∧
        ({0, 1} : Finset ℕ).card = 2 ∧
        ∀ s ⊆ ({0, 1} : Finset ℕ), s.card = 2 - 1 →
          s ∈ ({{0}, {1}, {2}} : Finset (Finset ℕ))) :=
  apriori_candidates_join_prune {{0}, {1}, {2}} 2 {0, 1}

/-- C9: an empty transaction list yields an empty mapping from both miners,
and the rule generator applied to the empty mapping yields no rules; no
failure occurs anywhere. -/
theorem empty_input_empty_output (ms mc : ℚ) :
    (∀ I : Finset α, apriori [] ms I = none) ∧
    eclatPairs ([] : List (Finset α)) ms = [] ∧
    (∀ I : Finset α, eclat [] ms I = none) ∧
    generate_association_rules ([] : List (Finset α × ℚ)) mc = [] := by
  refine ⟨?_, rfl, ?_, rfl⟩
  · intro I
    simp [apriori, aprioriKeys]
  · intro I
    simp [eclat, eclatPairs]

theorem empty_input_empty_output_witness :
    (∀ I : Finset ℕ, apriori [] (1 / 2) I = none) ∧
    eclatPairs ([] : List (Finset ℕ)) (1 / 2) = [] ∧
    (∀ I : Finset ℕ, eclat [] (1 / 2) I = none) ∧
    generate_association_rules ([] : List (Finset ℕ × ℚ)) (1 / 2) = [] :=
  empty_input_empty_output (1 / 2) (1 / 2)

/-! ### Rule generator lemmas -/

lemma sublist_of_sorted_lt_subset :
    ∀ (l₂ l₁ : List α), l₁.Sorted (· < ·) → l₂.Sorted (· < ·) →
      (∀ a ∈ l₁, a ∈ l₂) → l₁.Sublist l₂ := by
  intro l₂
  induction l₂ with
  | nil =>
    intro l₁ _ _ hsub
    cases l₁ with
    | nil => exact List.Sublist.refl []
    | cons a t => exact absurd (hsub a (List.mem_cons_self a t)) (List.not_mem_nil a)
  | cons b t₂ ih =>
    intro l₁ h₁ h₂ hsub
    cases l₁ with
    | nil => exact List.nil_sublist _
    | cons a t₁ =>
      rw [List.sorted_cons] at h₁ h₂
      by_cases hab : a = b
      · subst hab
        refine List.Sublist.cons₂ a (ih t₁ h₁.2 h₂.2 ?_)
        intro x hx
        rcases List.mem_cons.mp (hsub x (List.mem_cons_of_mem a hx)) with h | h
        · exact absurd (h ▸ h₁.1 x hx) (lt_irrefl a)
        · exact h
      · have ha : a ∈ t₂ := by
          rcases List.mem_cons.mp (hsub a (List.mem_cons_self a t₁)) with h | h
          · exact absurd h hab
          · exact h
        have hba : b < a := h₂.1 a ha
        refine List.Sublist.cons b (ih (a :: t₁) (List.sorted_cons.mpr h₁) h₂.2 ?_)
        intro x hx
        rcases List.mem_cons.mp (hsub x hx) with h | h
        · exfalso
          rcases List.mem_cons.mp hx with h' | h'
          · exact hab (h' ▸ h)
          · exact absurd (h ▸ h₁.1 x h') (not_lt.mpr hba.le)
        · exact h

lemma sort_sublist_sort {A B : Finset α} (h : A ⊆ B) :
    (A.sort (· ≤ ·)).Sublist (B.sort (· ≤ ·)) :=
  sublist_of_sorted_lt_subset (B.sort (· ≤ ·)) (A.sort (· ≤ ·))
    (Finset.sort_sorted_lt A) (Finset.sort_sorted_lt B)
    (fun a ha => (Finset.mem_sort _).mpr (h ((Finset.mem_sort _).mp ha)))

lemma mem_rulesFor {freq : List (Finset α × ℚ)} {mc : ℚ} {I : Finset α} {sXY : ℚ}
    {r : AssocRule α} (hr : r ∈ rulesFor freq mc I sXY) :
    ∃ sX sY, 2 ≤ I.card ∧ r.antecedent ⊆ I ∧ r.antecedent.Nonempty ∧
      r.consequent = I \ r.antecedent ∧ r.consequent.Nonempty ∧
      dictGet freq r.antecedent = some sX ∧ dictGet freq r.consequent = some sY ∧
      sX ≠ 0 ∧ r.support = sXY ∧ r.confidence = sXY / sX ∧ ¬ sXY / sX < mc ∧
      r.lift = if 0 < sX * sY then sXY / (sX * sY) else 0 := by
  unfold rulesFor at hr
  by_cases hcard : I.card < 2
  · rw [if_pos hcard] at hr; cases hr
  · rw [if_neg hcard] at hr
    rw [List.mem_flatMap] at hr
    obtain ⟨rr, hrr, hr⟩ := hr
    rw [List.mem_filterMap] at hr
    obtain ⟨antList, hant, hfr⟩ := hr
    rw [List.mem_sublistsLen] at hant
    obtain ⟨hsubl, hlen⟩ := hant
    obtain ⟨iidx, hi, hrreq⟩ := List.mem_range'.mp hrr
    have hrr1 : 1 ≤ rr := by omega
    have hsubI : antList.toFinset ⊆ I := by
      intro a ha
      exact (Finset.mem_sort _).mp (hsubl.subset (List.mem_toFinset.mp ha))
    have hanne : antList.toFinset.Nonempty := by
      cases antList with
      | nil => exfalso; rw [List.length_nil] at hlen; omega
      | cons a t => exact ⟨a, List.mem_toFinset.mpr (List.mem_cons_self a t)⟩
    dsimp only at hfr
    by_cases hcons : I \ antList.toFinset = ∅
    · rw [if_pos hcons] at hfr; cases hfr
    · rw [if_neg hcons] at hfr
      cases hX : dictGet freq antList.toFinset with
      | none => rw [hX] at hfr; cases hfr
      | some sX =>
        cases hY : dictGet freq (I \ antList.toFinset) with
        | none => rw [hX, hY] at hfr; cases hfr
        | some sY =>
          rw [hX, hY] at hfr
          dsimp only at hfr
          by_cases hX0 : sX = 0
          · rw [if_pos hX0] at hfr; cases hfr
          · rw [if_neg hX0] at hfr
            by_cases hconf : sXY / sX < mc
            · rw [if_pos hconf] at hfr; cases hfr
            · rw [if_neg hconf] at hfr
              injection hfr with hfr
              subst hfr
              exact ⟨sX, sY, by omega, hsubI, hanne, rfl,
                Finset.nonempty_iff_ne_empty.mpr hcons, hX, hY, hX0, rfl, rfl, hconf, rfl⟩

lemma mem_generate_rules {freq : List (Finset α × ℚ)} {mc : ℚ} {r : AssocRule α}
    (hr : r ∈ generate_association_rules freq mc) :
    ∃ I sXY sX sY, (I, sXY) ∈ freq ∧ 2 ≤ I.card ∧ r.antecedent ⊆ I ∧
      r.antecedent.Nonempty ∧ r.consequent = I \ r.antecedent ∧ r.consequent.Nonempty ∧
      dictGet freq r.antecedent = some sX ∧ dictGet freq r.consequent = some sY ∧
      sX ≠ 0 ∧ r.support = sXY ∧ r.confidence = sXY / sX ∧ ¬ sXY / sX < mc ∧
      r.lift = if 0 < sX * sY then sXY / (sX * sY) else 0 := by
  unfold generate_association_rules at hr
  rw [List.mem_flatMap] at hr
  obtain ⟨⟨I, sXY⟩, hmem, hr⟩ := hr
  obtain ⟨sX, sY, h⟩ := mem_rulesFor hr
  exact ⟨I, sXY, sX, sY, hmem, h⟩

lemma rule_complete {freq : List (Finset α × ℚ)} {mc : ℚ} {I A : Finset α}
    {sXY sX sY : ℚ} (hIf : (I, sXY) ∈ freq) (hA : A.Nonempty) (hAI : A ⊂ I)
    (hX : dictGet freq A = some sX) (hY : dictGet freq (I \ A) = some sY)
    (hX0 : sX ≠ 0) (hconf : ¬ sXY / sX < mc) :
    ({ antecedent := A, consequent := I \ A, support := sXY, confidence := sXY / sX,
       lift := if 0 < sX * sY then sXY / (sX * sY) else 0 } : AssocRule α) ∈
      generate_association_rules freq mc := by
  unfold generate_association_rules
  rw [List.mem_flatMap]
  refine ⟨(I, sXY), hIf, ?_⟩
  dsimp only
  unfold rulesFor
  have hlt : A.card < I.card := Finset.card_lt_card hAI
  have hA1 : 1 ≤ A.card := Finset.card_pos.mpr hA
  rw [if_neg (by omega : ¬ I.card < 2)]
  rw [List.mem_flatMap]
  refine ⟨A.card, ?_, ?_⟩
  · rw [List.mem_range']
    exact ⟨A.card - 1, by omega, by omega⟩
  · rw [List.mem_filterMap]
    refine ⟨A.sort (· ≤ ·), ?_, ?_⟩
    · rw [List.mem_sublistsLen]
      exact ⟨sort_sublist_sort hAI.subset, Finset.length_sort _⟩
    · have hcons : I \ (A.sort (· ≤ ·)).toFinset ≠ ∅ := by
        rw [Finset.sort_toFinset]
        exact Finset.nonempty_iff_ne_empty.mp (Finset.sdiff_nonempty.mpr hAI.not_subset)
      dsimp only
      rw [Finset.sort_toFinset] at hcons ⊢
      rw [if_neg hcons, hX, hY]
      dsimp only
      rw [if_neg hX0, if_neg hconf]

/-! ### Claim theorems about the rule generator -/

theorem apriori_eclat_agree_witness :
    apriori sampleT (1 / 2) {1, 2} = eclat sampleT (1 / 2) {1, 2} :=
  apriori_eclat_agree sampleT (1 / 2) {1, 2}

/-- C6: every rule emitted by generate_association_rules from a mapping
with non-negative support values (as every frequent-itemset mapping has)
has confidence at least min_confidence and non-negative lift. -/
theorem rules_confidence_lift_bounds (freq : List (Finset α × ℚ)) (mc : ℚ)
    (hnn : ∀ p ∈ freq, 0 ≤ p.2) :
    ∀ r ∈ generate_association_rules freq mc, mc ≤ r.confidence ∧ 0 ≤ r.lift := by
  intro r hr
  obtain ⟨I, sXY, sX, sY, hmem, _, _, _, _, _, _, _, _, _, hconf, hge, hlift⟩ :=
    mem_generate_rules hr
  constructor
  · rw [hconf]; exact not_lt.mp hge
  · rw [hlift]
    by_cases h : 0 < sX * sY
    · rw [if_pos h]
      exact div_nonneg (hnn (I, sXY) hmem) h.le
    · rw [if_neg h]

/-- The frequent-itemset mapping of the specification's third scenario,
with items a, b encoded as 0, 1. -/
def sampleFreq : List (Finset ℕ × ℚ) := [({0, 1}, 1 / 2), ({0}, 3 / 4), ({1}, 3 / 4)]

theorem rules_confidence_lift_bounds_witness :
    (∀ p ∈ sampleFreq, 0 ≤ p.2) ∧
    ∀ r ∈ generate_association_rules sampleFreq (1 / 2),
      (1 / 2 : ℚ) ≤ r.confidence ∧ 0 ≤ r.lift := by
  have hnn : ∀ p ∈ sampleFreq, 0 ≤ p.2 := by
    intro p hp
    simp only [sampleFreq, List.mem_cons, List.not_mem_nil, or_false] at hp
    rcases hp with rfl | rfl | rfl <;> norm_num
  exact ⟨hnn, rules_confidence_lift_bounds sampleFreq (1 / 2) hnn⟩

/-- C7: every emitted rule has a non-empty antecedent and a non-empty
consequent that are disjoint and whose union, paired with the rule's
support, is an entry of the input mapping of size at least 2; conversely,
every non-trivial bipartition of an entry of size at least 2 is considered:
whenever its lookups succeed with non-zero antecedent support and the
confidence test passes, the corresponding rule is in the output. -/
theorem rules_partition_complete (freq : List (Finset α × ℚ)) (mc : ℚ) :
    (∀ r ∈ generate_association_rules freq mc,
      r.antecedent.Nonempty ∧ r.consequent.Nonempty ∧
        Disjoint r.antecedent r.consequent ∧
        2 ≤ (r.antecedent ∪ r.consequent).card ∧
        (r.antecedent ∪ r.consequent, r.support) ∈ freq) ∧
    (∀ (I : Finset α) (sXY : ℚ), (I, sXY) ∈ freq →
      ∀ A : Finset α, A.Nonempty → A ⊂ I →
        ∀ sX sY : ℚ, dictGet freq A = some sX → dictGet freq (I \ A) = some sY →
          sX ≠ 0 → ¬ sXY / sX < mc →
          ({ antecedent := A, consequent := I \ A, support := sXY,
             confidence := sXY / sX,
             lift := if 0 < sX * sY then sXY / (sX * sY) else 0 } : AssocRule α) ∈
            generate_association_rules freq mc) := by
  constructor
  · intro r hr
    obtain ⟨I, sXY, sX, sY, hmem, hI2, hsub, hne, hcons, hcne, _, _, _, hsupp, _, _, _⟩ :=
      mem_generate_rules hr
    have hun : r.antecedent ∪ r.consequent = I := by
      rw [hcons, Finset.union_sdiff_of_subset hsub]
    refine ⟨hne, hcne, ?_, ?_, ?_⟩
    · rw [hcons]; exact Finset.disjoint_sdiff
    · rw [hun]; exact hI2
    · rw [hun, hsupp]; exact hmem
  · intro I sXY hIf A hA hAI sX sY hX hY hX0 hconf
    exact rule_complete hIf hA hAI hX hY hX0 hconf

theorem rules_partition_complete_witness :
    (∀ r ∈ generate_association_rules sampleFreq (1 / 2),
      r.antecedent.Nonempty ∧ r.consequent.Nonempty ∧
        Disjoint r.antecedent r.consequent ∧
        2 ≤ (r.antecedent ∪ r.consequent).card ∧
        (r.antecedent ∪ r.consequent, r.support) ∈ sampleFreq) ∧
    (∀ (I : Finset ℕ) (sXY : ℚ), (I, sXY) ∈ sampleFreq →
      ∀ A : Finset ℕ, A.Nonempty → A ⊂ I →
        ∀ sX sY : ℚ, dictGet sampleFreq A = some sX →
          dictGet sampleFreq (I \ A) = some sY →
          sX ≠ 0 → ¬ sXY / sX < (1 / 2 : ℚ) →
          ({ antecedent := A, consequent := I \ A, support := sXY,
             confidence := sXY / sX,
             lift := if 0 < sX * sY then sXY / (sX * sY) else 0 } : AssocRule ℕ) ∈
            generate_association_rules sampleFreq (1 / 2)) :=
  rules_partition_complete sampleFreq (1 / 2)

/-- C8: a split whose antecedent or consequent is absent from the mapping
produces no rule and no error (it is skipped silently), and every emitted
rule's lift is 0 whenever the product of the looked-up supports is 0,
instead of a division fault. -/
theorem rules_skip_missing_lift_zero (freq : List (Finset α × ℚ)) (mc : ℚ) :
    (∀ A : Finset α, dictGet freq A = none →
      ∀ r ∈ generate_association_rules freq mc, r.antecedent ≠ A ∧ r.consequent ≠ A) ∧
    (∀ r ∈ generate_association_rules freq mc,
      ∃ sX sY, dictGet freq r.antecedent = some sX ∧
        dictGet freq r.consequent = some sY ∧ sX ≠ 0 ∧
        (sX * sY = 0 → r.lift = 0)) := by
  constructor
  · intro A hA r hr
    obtain ⟨I, sXY, sX, sY, _, _, _, _, _, _, hX, hY, _⟩ := mem_generate_rules hr
    constructor
    · intro h; rw [h, hA] at hX; cases hX
    · intro h; rw [h, hA] at hY; cases hY
  · intro r hr
    obtain ⟨I, sXY, sX, sY, _, _, _, _, _, _, hX, hY, hX0, _, _, _, hlift⟩ :=
      mem_generate_rules hr
    refine ⟨sX, sY, hX, hY, hX0, ?_⟩
    intro h0
    rw [hlift, if_neg (by rw [h0]; exact lt_irrefl 0)]

theorem rules_skip_missing_lift_zero_witness :
    (∀ A : Finset ℕ, dictGet sampleFreq A = none →
      ∀ r ∈ generate_association_rules sampleFreq (1 / 2),
        r.antecedent ≠ A ∧ r.consequent ≠ A) ∧
    (∀ r ∈ generate_association_rules sampleFreq (1 / 2),
      ∃ sX sY, dictGet sampleFreq r.antecedent = some sX ∧
        dictGet sampleFreq r.consequent = some sY ∧ sX ≠ 0 ∧
        (sX * sY = 0 → r.lift = 0)) :=
  rules_skip_missing_lift_zero sampleFreq (1 / 2)

/-- C10: the rule generator is a total function on arbitrary mappings, and
the confidence division is guarded: a split whose antecedent is mapped to
support 0 is skipped before the division, so every emitted rule's
confidence is its support divided by a non-zero antecedent support. -/
theorem rules_no_division_by_zero (freq : List (Finset α × ℚ)) (mc : ℚ) :
    (∀ A : Finset α, dictGet freq A = some 0 →
      ∀ r ∈ generate_association_rules freq mc, r.antecedent ≠ A) ∧
    (∀ r ∈ generate_association_rules freq mc,
      ∃ sX, dictGet freq r.antecedent = some sX ∧ sX ≠ 0 ∧
        r.confidence = r.support / sX) := by
  constructor
  · intro A hA r hr
    obtain ⟨I, sXY, sX, sY, _, _, _, _, _, _, hX, _, hX0, _⟩ := mem_generate_rules hr
    intro h
    rw [h, hA] at hX
    injection hX with h2
    exact hX0 h2.symm
  · intro r hr
    obtain ⟨I, sXY, sX, sY, _, _, _, _, _, _, hX, _, hX0, hsupp, hconf, _⟩ :=
      mem_generate_rules hr
    exact ⟨sX, hX, hX0, by rw [hconf, hsupp]⟩

/-- A mapping containing a zero support value, for the C10 witness. -/
def zeroFreq : List (Finset ℕ × ℚ) := [({0, 1}, 1 / 2), ({0}, 0), ({1}, 3 / 4)]

theorem rules_no_division_by_zero_witness :
    (∀ A : Finset ℕ, dictGet zeroFreq A = some 0 →
      ∀ r ∈ generate_association_rules zeroFreq 0, r.antecedent ≠ A) ∧
    (∀ r ∈ generate_association_rules zeroFreq 0,
      ∃ sX, dictGet zeroFreq r.antecedent = some sX ∧ sX ≠ 0 ∧
        r.confidence = r.support / sX) :=
  rules_no_division_by_zero zeroFreq 0
